import Mathlib

/-!
Verification of the stock-data validation and cleaning scripts
(`scripts/validate_stock_data.py` and `scripts/convert_dates.py`).

Dates are modelled as `Date` records; date strings are modelled as `List Char`.
The CPython `strptime` field semantics are embedded exactly: `%Y` matches
exactly four digits, `%m` matches one or two digits with value 1..12,
`%d` matches one or two digits with value 1..31, the whole string must be
consumed, and the matched numbers must then form a valid calendar date
(year at least 1, day bounded by the month length, Gregorian leap rule).
A column of a pandas DataFrame is modelled as a `List (Option v)`, with
`none` standing for a missing value (`NaN`); row labels are positions, as
with the default `RangeIndex` used by the scripts.
-/

namespace StockData

/-- Gregorian leap-year rule, as implemented by Python `datetime`. -/
def isLeap (y : Nat) : Bool :=
  (y % 4 == 0 && y % 100 != 0) || (y % 400 == 0)

/-- Number of days of month `m` in year `y` (Python `calendar` rule). -/
def daysInMonth (y m : Nat) : Nat :=
  if m = 2 then (if isLeap y then 29 else 28)
  else if m = 4 ∨ m = 6 ∨ m = 9 ∨ m = 11 then 30
  else 31

/-- A calendar date, the result of a successful `datetime.strptime`. -/
structure Date where
  year : Nat
  month : Nat
  day : Nat
deriving Repr, DecidableEq

/-- Validity check performed by the `datetime` constructor
(`MINYEAR = 1`, `MAXYEAR = 9999`, day bounded by the month length). -/
def validDate (y m d : Nat) : Bool :=
  decide (1 ≤ y) && decide (y ≤ 9999) && decide (1 ≤ m) && decide (m ≤ 12)
    && decide (1 ≤ d) && decide (d ≤ daysInMonth y m)

/-- Strict chronological order on dates, as `datetime` comparison. -/
def dateLT (a b : Date) : Bool :=
  decide (a.year < b.year)
    || (decide (a.year = b.year)
        && (decide (a.month < b.month)
            || (decide (a.month = b.month) && decide (a.day < b.day))))

/-- All characters are ASCII decimal digits. -/
def allDigits (cs : List Char) : Bool := cs.all Char.isDigit

/-- Numeric value of a digit string (most significant digit first). -/
def digitsToNat (cs : List Char) : Nat :=
  cs.foldl (fun a c => 10 * a + (c.toNat - 48)) 0

/-- Split a character list at every occurrence of `sep`; the separator
occurrences are dropped.  This mirrors how a `strptime` format string of
the shape `tok sep tok sep tok` cuts its input: the result has exactly
three groups iff the input contains exactly two separators. -/
def splitSep (sep : Char) : List Char → List (List Char)
  | [] => [[]]
  | c :: cs =>
    if c = sep then [] :: splitSep sep cs
    else
      match splitSep sep cs with
      | [] => [[c]]
      | g :: gs => (c :: g) :: gs

/-- The `strptime` field `%Y`: exactly four digits. -/
def yearTok (cs : List Char) : Option Nat :=
  if cs.length = 4 ∧ allDigits cs = true then some (digitsToNat cs) else none

/-- The `strptime` field `%m`: one or two digits, value 1..12. -/
def monthTok (cs : List Char) : Option Nat :=
  if (cs.length = 1 ∨ cs.length = 2) ∧ allDigits cs = true then
    if 1 ≤ digitsToNat cs ∧ digitsToNat cs ≤ 12 then some (digitsToNat cs) else none
  else none

/-- The `strptime` field `%d`: one or two digits, value 1..31. -/
def dayTok (cs : List Char) : Option Nat :=
  if (cs.length = 1 ∨ cs.length = 2) ∧ allDigits cs = true then
    if 1 ≤ digitsToNat cs ∧ digitsToNat cs ≤ 31 then some (digitsToNat cs) else none
  else none

/-- Model of `datetime.strptime(s, "%Y-%m-%d")` from `validate_stock_data.py`,
returning `none` where Python raises `ValueError`. -/
def parseFmtYMD (s : List Char) : Option Date :=
  match splitSep '-' s with
  | [a, b, c] =>
    match yearTok a, monthTok b, dayTok c with
    | some y, some m, some d => if validDate y m d then some ⟨y, m, d⟩ else none
    | _, _, _ => none
  | _ => none

/-- Model of `datetime.strptime(s, "%m-%d-%Y")` from `validate_stock_data.py`. -/
def parseFmtMDY (s : List Char) : Option Date :=
  match splitSep '-' s with
  | [a, b, c] =>
    match monthTok a, dayTok b, yearTok c with
    | some m, some d, some y => if validDate y m d then some ⟨y, m, d⟩ else none
    | _, _, _ => none
  | _ => none

/-- Model of `parse_date_with_multiple_formats` of `validate_stock_data.py`:
try `%Y-%m-%d` first, then `%m-%d-%Y`; return the first success. -/
def parse_date_with_multiple_formats (s : List Char) : Option Date :=
  match parseFmtYMD s with
  | some d => some d
  | none => parseFmtMDY s

/-- Model of `datetime.strptime(s, "%d/%m/%Y")`, the canonical-format check used by
`validate_date_format` and `check_timeseries_sequence`. -/
def strptimeDMY (s : List Char) : Option Date :=
  match splitSep '/' s with
  | [a, b, c] =>
    match dayTok a, monthTok b, yearTok c with
    | some d, some m, some y => if validDate y m d then some ⟨y, m, d⟩ else none
    | _, _, _ => none
  | _ => none

/-- Model of `validate_date_format` of `validate_stock_data.py`. -/
def validate_date_format (s : List Char) : Bool := (strptimeDMY s).isSome

/-- Zero-padded two-digit rendering (`%d` and `%m` of `strftime`). -/
def pad2 (n : Nat) : List Char :=
  if n < 10 then '0' :: Nat.toDigits 10 n else Nat.toDigits 10 n

/-- Model of `parsed_date.strftime("%d/%m/%Y")`: the canonical dd/mm/yyyy rendering
(glibc prints `%Y` without padding; all parsed years have four digits). -/
def strftimeDMY (d : Date) : List Char :=
  pad2 d.day ++ '/' :: (pad2 d.month ++ '/' :: Nat.toDigits 10 d.year)

/-- ASCII whitespace stripped by Python `str.strip()`. -/
def isPyWS (c : Char) : Bool :=
  c = ' ' || c = '\t' || c = '\n' || c = '\x0d' || c = '\x0b' || c = '\x0c'

/-- Python `str.strip()` on ASCII input. -/
def stripWS (s : List Char) : List Char :=
  ((s.dropWhile isPyWS).reverse.dropWhile isPyWS).reverse

/-- Model of `parse_mixed_date` of `convert_dates.py`.  After stripping whitespace it
tries `re.fullmatch` with `\d{4}-\d{2}-\d{2}` and, on a match, parses with
the format string `"%Y-%d-%m"` (day in the middle, month last, exactly as
written in the source); otherwise it tries `\d{2}-\d{2}-\d{4}` with
`"%m-%d-%Y"`.  `none` models the raised `ValueError`. -/
def parse_mixed_date (s0 : List Char) : Option Date :=
  let s := stripWS s0
  match splitSep '-' s with
  | [a, b, c] =>
    if a.length = 4 ∧ allDigits a = true ∧ b.length = 2 ∧ allDigits b = true
        ∧ c.length = 2 ∧ allDigits c = true then
      -- strptime(s, "%Y-%d-%m"): the middle field is the day, the last the month
      if (1 ≤ digitsToNat b ∧ digitsToNat b ≤ 31)
          ∧ (1 ≤ digitsToNat c ∧ digitsToNat c ≤ 12)
          ∧ validDate (digitsToNat a) (digitsToNat c) (digitsToNat b) = true then
        some ⟨digitsToNat a, digitsToNat c, digitsToNat b⟩
      else none
    else if a.length = 2 ∧ allDigits a = true ∧ b.length = 2 ∧ allDigits b = true
        ∧ c.length = 4 ∧ allDigits c = true then
      -- strptime(s, "%m-%d-%Y")
      if (1 ≤ digitsToNat a ∧ digitsToNat a ≤ 12)
          ∧ (1 ≤ digitsToNat b ∧ digitsToNat b ≤ 31)
          ∧ validDate (digitsToNat c) (digitsToNat a) (digitsToNat b) = true then
        some ⟨digitsToNat c, digitsToNat a, digitsToNat b⟩
      else none
    else none
  | _ => none

/-- The `conversion_report` dictionary built by `standardize_dates`;
an error record is the pair of the display row number and the raw value. -/
structure ConversionReport where
  converted : Nat
  already_standard : Nat
  errors : List (Nat × List Char)
deriving Repr, DecidableEq

/-- The loop body of `standardize_dates`, with `idx` the position of the
first element of the remaining list in the whole column. -/
def standardizeAux : Nat → List (List Char) → List (List Char) × ConversionReport
  | _, [] => ([], ⟨0, 0, []⟩)
  | idx, s :: rest =>
    let tl := standardizeAux (idx + 1) rest
    match parse_date_with_multiple_formats s with
    | some d =>
      let std := strftimeDMY d
      if s = std then
        (std :: tl.1, { tl.2 with already_standard := tl.2.already_standard + 1 })
      else
        (std :: tl.1, { tl.2 with converted := tl.2.converted + 1 })
    | none =>
      (s :: tl.1, { tl.2 with errors := (idx + 2, s) :: tl.2.errors })

/-- Model of `standardize_dates` of `validate_stock_data.py`, acting on the Date
column (the other columns are copied unchanged by `df.copy()`). -/
def standardize_dates (dates : List (List Char)) :
    List (List Char) × ConversionReport :=
  standardizeAux 0 dates

/-- The parsing loop of `check_timeseries_sequence`: returns the list of
`(index, parsed date)` pairs of the rows that parse as dd/mm/yyyy, in
order, and the display row numbers of the rows that fail to parse. -/
def seqAux : Nat → List (List Char) → List (Nat × Date) × List Nat
  | _, [] => ([], [])
  | idx, s :: rest =>
    let tl := seqAux (idx + 1) rest
    match strptimeDMY s with
    | some d => ((idx, d) :: tl.1, tl.2)
    | none => (tl.1, (idx + 2) :: tl.2)

/-- The comparison loop of `check_timeseries_sequence`: for every pair of
consecutive parsable rows, report the second row when its date is strictly
earlier than the first (Python `curr_date > next_date`). -/
def orderViolations : List (Nat × Date) → List Nat
  | [] => []
  | [_] => []
  | p :: q :: rest =>
    (if dateLT q.2 p.2 then [q.1 + 2] else []) ++ orderViolations (q :: rest)

/-- Model of `check_timeseries_sequence` of `validate_stock_data.py`.  The
`out_of_order` entries are modelled by their display row numbers: first
the parse failures, then the order violations, exactly as appended by the
source; `is_sequential` is true iff no entry was appended. -/
def check_timeseries_sequence (dates : List (List Char)) : Bool × List Nat :=
  let pf := seqAux 0 dates
  let oo := pf.2 ++ orderViolations pf.1
  (oo.isEmpty, oo)

/-- Model of `missing_indices` of `impute_missing_values`: positions of the missing
cells of a column, in increasing order. -/
def missingIndices {v : Type} (col : List (Option v)) : List Nat :=
  (List.range col.length).filter (fun i => (col.getD i none).isNone)

/-- The grouping loop of `impute_missing_values`: `start` and `cur` are the
bounds of the block of consecutive indices collected so far. -/
def groupRunsAux : Nat → Nat → List Nat → List (Nat × Nat)
  | start, cur, [] => [(start, cur)]
  | start, cur, j :: rest =>
    if j = cur + 1 then groupRunsAux start j rest
    else (start, cur) :: groupRunsAux j j rest

/-- Group a sorted list of indices into maximal blocks of consecutive
indices, returned as `(start, end)` pairs. -/
def groupRuns : List Nat → List (Nat × Nat)
  | [] => []
  | i :: rest => groupRunsAux i i rest

/-- Model of `Series.ffill`: each missing cell takes the nearest preceding present
value; `last` is the most recent present value seen so far. -/
def ffillAux {v : Type} (last : Option v) : List (Option v) → List (Option v)
  | [] => []
  | none :: xs => last :: ffillAux last xs
  | some a :: xs => some a :: ffillAux (some a) xs

/-- Model of `temp_series.ffill()`. -/
def ffill {v : Type} (l : List (Option v)) : List (Option v) := ffillAux none l

/-- Model of `temp_series.bfill()`: each missing cell takes the nearest following
present value. -/
def bfill {v : Type} (l : List (Option v)) : List (Option v) :=
  (ffillAux none l.reverse).reverse

/-- Model of `df.loc[a:b, col]`: the inclusive label slice of a column (labels are
positions under the default RangeIndex). -/
def sliceIncl {v : Type} (l : List (Option v)) (a b : Nat) : List (Option v) :=
  (l.drop a).take (b + 1 - a)

/-- Model of `df_clean.loc[s:e, col] = vals`: label-aligned assignment of the rows
`s..e`; `vals` has length `e + 1 - s`. -/
def writeBack {v : Type} (col : List (Option v)) (s e : Nat)
    (vals : List (Option v)) : List (Option v) :=
  col.take s ++ vals ++ col.drop (e + 1)

/-- The imputation of one run `s..e` from `impute_missing_values`: slice the
run plus one context row on each side, forward-fill, backward-fill, and
write the rows `s..e` of the filled slice back. -/
def imputeRun {v : Type} (col : List (Option v)) (s e : Nat) : List (Option v) :=
  let cs := s - 1
  let ce := min (col.length - 1) (e + 1)
  let filled := bfill (ffill (sliceIncl col cs ce))
  writeBack col s e (sliceIncl filled (s - cs) (e - cs))

/-- The per-column imputation report of `impute_missing_values`; a record is
`(first display row, last display row, count)`. -/
structure ImputeReport where
  imputed : List (Nat × Nat × Nat)
  not_imputed : List (Nat × Nat × Nat)
deriving Repr, DecidableEq

/-- The main loop of `impute_missing_values` over the grouped runs of one
column; the column is threaded through because the source mutates
`df_clean` in place between runs. -/
def imputeRuns {v : Type} (maxC : Nat) :
    List (Nat × Nat) → List (Option v) → List (Option v) × ImputeReport
  | [], col => (col, ⟨[], []⟩)
  | (s, e) :: rest, col =>
    if e + 1 - s ≤ maxC then
      let tl := imputeRuns maxC rest (imputeRun col s e)
      (tl.1, { tl.2 with imputed := (s + 2, e + 2, e + 1 - s) :: tl.2.imputed })
    else
      let tl := imputeRuns maxC rest col
      (tl.1, { tl.2 with not_imputed := (s + 2, e + 2, e + 1 - s) :: tl.2.not_imputed })

/-- Model of `impute_missing_values` of `validate_stock_data.py`, acting on one
numeric column (each non-Date column is processed independently). -/
def impute_missing_values {v : Type} (col : List (Option v)) (maxC : Nat) :
    List (Option v) × ImputeReport :=
  imputeRuns maxC (groupRuns (missingIndices col)) col

/-- A maximal run of missing cells `s..e`: every cell in the range is
missing, the cell left of `s` (when any) and the cell right of `e`
(when any) are present, and the run lies inside the column. -/
def MaxRun {v : Type} (col : List (Option v)) (s e : Nat) : Prop :=
  s ≤ e ∧ e < col.length
    ∧ (∀ j, j < e + 1 - s → (col.getD (s + j) none).isNone = true)
    ∧ (s = 0 ∨ (col.getD (s - 1) none).isSome = true)
    ∧ (e + 1 = col.length ∨ (col.getD (e + 1) none).isSome = true)

instance {v : Type} (col : List (Option v)) (s e : Nat) :
    Decidable (MaxRun col s e) := by
  unfold MaxRun; infer_instance

/-- The reference value a small run is filled with: the present value just
left of the run when the run does not start the column, otherwise the
present value just right of it; `none` when neither exists. -/
def refVal {v : Type} (col : List (Option v)) (s e : Nat) : Option v :=
  if 0 < s then col.getD (s - 1) none else col.getD (e + 1) none

/-- What `standardize_dates` writes into one cell of the Date column. -/
def standardizeCell (s : List Char) : List Char :=
  match parse_date_with_multiple_formats s with
  | some d => strftimeDMY d
  | none => s

/-! ### Lemmas about `splitSep` -/

/-- Rejoin the groups produced by `splitSep`, reinserting the separator. -/
def joinSep (sep : Char) : List (List Char) → List Char
  | [] => []
  | [g] => g
  | g :: gs => g ++ sep :: joinSep sep gs

theorem splitSep_ne_nil (sep : Char) (s : List Char) : splitSep sep s ≠ [] := by
  induction s with
  | nil => simp [splitSep]
  | cons c cs ih =>
    simp only [splitSep]
    split
    · simp
    · cases h : splitSep sep cs with
      | nil => simp
      | cons g gs => simp

theorem joinSep_cons_cons (sep c : Char) (g : List Char) (gs : List (List Char)) :
    joinSep sep ((c :: g) :: gs) = c :: joinSep sep (g :: gs) := by
  cases gs <;> simp [joinSep]

theorem joinSep_splitSep (sep : Char) (s : List Char) :
    joinSep sep (splitSep sep s) = s := by
  induction s with
  | nil => simp [splitSep, joinSep]
  | cons c cs ih =>
    simp only [splitSep]
    split
    · rename_i hc
      cases h : splitSep sep cs with
      | nil => exact absurd h (splitSep_ne_nil sep cs)
      | cons g gs =>
        rw [h] at ih
        simp [joinSep, ih, hc]
    · cases h : splitSep sep cs with
      | nil => exact absurd h (splitSep_ne_nil sep cs)
      | cons g gs =>
        rw [h] at ih
        rw [joinSep_cons_cons, ih]

theorem splitSep_three {sep : Char} {s a b c : List Char}
    (h : splitSep sep s = [a, b, c]) : s = a ++ sep :: b ++ sep :: c := by
  have := joinSep_splitSep sep s
  rw [h] at this
  simpa [joinSep] using this.symm

theorem splitSep_of_not_mem {sep : Char} {s : List Char} (h : sep ∉ s) :
    splitSep sep s = [s] := by
  induction s with
  | nil => simp [splitSep]
  | cons c cs ih =>
    simp only [List.mem_cons, not_or] at h
    simp only [splitSep]
    rw [if_neg (fun hc => h.1 hc.symm), ih h.2]

/-! ### Characters of parsable strings -/

theorem allDigits_mem {cs : List Char} (h : allDigits cs = true) :
    ∀ c ∈ cs, c.isDigit = true := by
  simpa [allDigits, List.all_eq_true] using h

theorem yearTok_digits {cs : List Char} {y : Nat} (h : yearTok cs = some y) :
    allDigits cs = true := by
  unfold yearTok at h
  split at h
  · tauto
  · exact absurd h (by simp)

theorem monthTok_digits {cs : List Char} {m : Nat} (h : monthTok cs = some m) :
    allDigits cs = true := by
  unfold monthTok at h
  split at h
  · tauto
  · exact absurd h (by simp)

theorem dayTok_digits {cs : List Char} {d : Nat} (h : dayTok cs = some d) :
    allDigits cs = true := by
  unfold dayTok at h
  split at h
  · tauto
  · exact absurd h (by simp)

theorem isDigit_ne (c x : Char) (hx : x.isDigit = false) (h : c.isDigit = true) :
    c ≠ x := by
  intro hc
  rw [hc, hx] at h
  exact absurd h (by simp)

/-- A string accepted by one of the two dash formats consists of digits
and dashes only. -/
theorem parseFmtYMD_chars {s : List Char} {d : Date}
    (h : parseFmtYMD s = some d) : ∀ c ∈ s, c.isDigit = true ∨ c = '-' := by
  unfold parseFmtYMD at h
  split at h
  all_goals try exact Option.noConfusion h
  split at h
  all_goals try exact Option.noConfusion h
  rename_i x0 a b c0 hsp o1 o2 o3 y m dd hy hm hd
  clear x0 o1 o2 o3
  have hs := splitSep_three hsp
  subst hs
  intro c hc
  have ha := allDigits_mem (yearTok_digits hy)
  have hb := allDigits_mem (monthTok_digits hm)
  have hc0 := allDigits_mem (dayTok_digits hd)
  rcases List.mem_append.mp hc with h1 | h1
  · rcases List.mem_append.mp h1 with h2 | h2
    · exact Or.inl (ha c h2)
    · rcases List.mem_cons.mp h2 with h3 | h3
      · exact Or.inr h3
      · exact Or.inl (hb c h3)
  · rcases List.mem_cons.mp h1 with h2 | h2
    · exact Or.inr h2
    · exact Or.inl (hc0 c h2)

theorem parseFmtMDY_chars {s : List Char} {d : Date}
    (h : parseFmtMDY s = some d) : ∀ c ∈ s, c.isDigit = true ∨ c = '-' := by
  unfold parseFmtMDY at h
  split at h
  all_goals try exact Option.noConfusion h
  split at h
  all_goals try exact Option.noConfusion h
  rename_i x0 a b c0 hsp o1 o2 o3 m dd y hm hd hy
  clear x0 o1 o2 o3
  have hs := splitSep_three hsp
  subst hs
  intro c hc
  have ha := allDigits_mem (monthTok_digits hm)
  have hb := allDigits_mem (dayTok_digits hd)
  have hc0 := allDigits_mem (yearTok_digits hy)
  rcases List.mem_append.mp hc with h1 | h1
  · rcases List.mem_append.mp h1 with h2 | h2
    · exact Or.inl (ha c h2)
    · rcases List.mem_cons.mp h2 with h3 | h3
      · exact Or.inr h3
      · exact Or.inl (hb c h3)
  · rcases List.mem_cons.mp h1 with h2 | h2
    · exact Or.inr h2
    · exact Or.inl (hc0 c h2)

theorem parse_multiple_chars {s : List Char} {d : Date}
    (h : parse_date_with_multiple_formats s = some d) :
    ∀ c ∈ s, c.isDigit = true ∨ c = '-' := by
  unfold parse_date_with_multiple_formats at h
  rcases hy : parseFmtYMD s with _ | d1 <;> rw [hy] at h
  · exact parseFmtMDY_chars h
  · obtain rfl : d1 = d := by injection h
    exact parseFmtYMD_chars hy

/-- A string accepted by `strptime("%d/%m/%Y")` consists of digits and
slashes only. -/
theorem strptimeDMY_chars {s : List Char} {d : Date}
    (h : strptimeDMY s = some d) : ∀ c ∈ s, c.isDigit = true ∨ c = '/' := by
  unfold strptimeDMY at h
  split at h
  all_goals try exact Option.noConfusion h
  split at h
  all_goals try exact Option.noConfusion h
  rename_i x0 a b c0 hsp o1 o2 o3 dd m y hd hm hy
  clear x0 o1 o2 o3
  have hs := splitSep_three hsp
  subst hs
  intro c hc
  have ha := allDigits_mem (dayTok_digits hd)
  have hb := allDigits_mem (monthTok_digits hm)
  have hc0 := allDigits_mem (yearTok_digits hy)
  rcases List.mem_append.mp hc with h1 | h1
  · rcases List.mem_append.mp h1 with h2 | h2
    · exact Or.inl (ha c h2)
    · rcases List.mem_cons.mp h2 with h3 | h3
      · exact Or.inr h3
      · exact Or.inl (hb c h3)
  · rcases List.mem_cons.mp h1 with h2 | h2
    · exact Or.inr h2
    · exact Or.inl (hc0 c h2)

/-- The canonical rendering always contains a slash. -/
theorem slash_mem_strftimeDMY (d : Date) : '/' ∈ strftimeDMY d := by
  unfold strftimeDMY
  simp

/-- No string accepted by a dash-separated candidate format can equal its
slash-separated canonical rendering. -/
theorem parse_ne_strftime {s : List Char} {d d' : Date}
    (h : parse_date_with_multiple_formats s = some d) : s ≠ strftimeDMY d' := by
  intro hs
  have hmem : '/' ∈ s := hs ▸ slash_mem_strftimeDMY d'
  rcases parse_multiple_chars h '/' hmem with h1 | h1
  · exact absurd h1 (by decide)
  · exact absurd h1 (by decide)

/-- A string already in the canonical dd/mm/yyyy format matches neither of
the two dash-separated candidate formats. -/
theorem canonical_parse_none {s : List Char} {d : Date}
    (h : strptimeDMY s = some d) : parse_date_with_multiple_formats s = none := by
  have hdash : '-' ∉ s := by
    intro hmem
    rcases strptimeDMY_chars h '-' hmem with h1 | h1
    · exact absurd h1 (by decide)
    · exact absurd h1 (by decide)
  have hsp : splitSep '-' s = [s] := splitSep_of_not_mem hdash
  unfold parse_date_with_multiple_formats parseFmtYMD parseFmtMDY
  rw [hsp]

/-! ### Lemmas about `standardize_dates` -/

theorem standardizeCell_of_parse_none {s : List Char}
    (h : parse_date_with_multiple_formats s = none) : standardizeCell s = s := by
  simp [standardizeCell, h]

theorem standardizeAux_fst (k : Nat) (l : List (List Char)) :
    (standardizeAux k l).1 = l.map standardizeCell := by
  induction l generalizing k with
  | nil => rfl
  | cons s rest ih =>
    rcases hp : parse_date_with_multiple_formats s with _ | d
    · simp [standardizeAux, hp, standardizeCell, ih]
    · have hne : s ≠ strftimeDMY d := parse_ne_strftime hp
      simp [standardizeAux, hp, standardizeCell, ih, hne]

theorem standardizeAux_already (k : Nat) (l : List (List Char)) :
    (standardizeAux k l).2.already_standard = 0 := by
  induction l generalizing k with
  | nil => rfl
  | cons s rest ih =>
    rcases hp : parse_date_with_multiple_formats s with _ | d
    · simp [standardizeAux, hp, ih]
    · have hne : s ≠ strftimeDMY d := parse_ne_strftime hp
      simp [standardizeAux, hp, hne, ih]

theorem standardizeAux_converted (k : Nat) (l : List (List Char)) :
    (standardizeAux k l).2.converted
      = (l.filter (fun s => (parse_date_with_multiple_formats s).isSome)).length := by
  induction l generalizing k with
  | nil => rfl
  | cons s rest ih =>
    rcases hp : parse_date_with_multiple_formats s with _ | d
    · simp [standardizeAux, hp, ih, List.filter_cons]
    · have hne : s ≠ strftimeDMY d := parse_ne_strftime hp
      simp [standardizeAux, hp, hne, ih, List.filter_cons]

theorem standardizeAux_errors_map (k : Nat) (l : List (List Char)) :
    (standardizeAux k l).2.errors.map Prod.snd
      = l.filter (fun s => (parse_date_with_multiple_formats s).isNone) := by
  induction l generalizing k with
  | nil => rfl
  | cons s rest ih =>
    rcases hp : parse_date_with_multiple_formats s with _ | d
    · simp [standardizeAux, hp, ih, List.filter_cons]
    · have hne : s ≠ strftimeDMY d := parse_ne_strftime hp
      simp [standardizeAux, hp, hne, ih, List.filter_cons]

theorem standardizeAux_errors_mem (l : List (List Char)) :
    ∀ (k i : Nat), i < l.length →
      parse_date_with_multiple_formats (l.getD i []) = none →
      (k + i + 2, l.getD i []) ∈ (standardizeAux k l).2.errors := by
  induction l with
  | nil => intro k i hi; exact absurd hi (by simp)
  | cons s rest ih =>
    intro k i hi hp
    cases i with
    | zero =>
      simp only [List.getD_cons_zero] at hp ⊢
      simp [standardizeAux, hp]
    | succ i =>
      simp only [List.getD_cons_succ] at hp ⊢
      have hmem := ih (k + 1) i (by simpa using Nat.lt_of_succ_lt_succ hi) hp
      have harith : k + 1 + i + 2 = k + (i + 1) + 2 := by omega
      rw [harith] at hmem
      rcases hp2 : parse_date_with_multiple_formats s with _ | d
      · simp only [standardizeAux, hp2, List.mem_cons]
        exact Or.inr hmem
      · have hne : s ≠ strftimeDMY d := parse_ne_strftime hp2
        simpa [standardizeAux, hp2, hne] using hmem

/-! ### Claims about date standardization -/

/-- Claim C1, counterexample: the date string `13/01/2015` is already in
the canonical dd/mm/yyyy format, and `standardize_dates` does return the
identical string, but it counts the row in the error list, not as
`already_standard` (which stays 0), contrary to the claim. -/
theorem c1_canonical_counted_as_error :
    strptimeDMY ("13/01/2015".toList) = some ⟨2015, 1, 13⟩
    ∧ (standardize_dates [("13/01/2015".toList)]).1 = [("13/01/2015".toList)]
    ∧ (standardize_dates [("13/01/2015".toList)]).2.already_standard = 0
    ∧ (standardize_dates [("13/01/2015".toList)]).2.converted = 0
    ∧ (standardize_dates [("13/01/2015".toList)]).2.errors
        = [(2, "13/01/2015".toList)] := by
  refine ⟨by decide, by decide, by decide, by decide, by decide⟩

/-- Claim C1 (amended): a date string already in the canonical dd/mm/yyyy
format matches neither dash-separated candidate format, so
`standardize_dates` keeps the identical string in the output column but
counts the row as a parse error (appended to the error list with its
display row number) — never as `already_standard` or `converted`; the
`already_standard` counter is 0 on every input. -/
theorem c1_canonical_round_trip (dates : List (List Char)) :
    (standardize_dates dates).2.already_standard = 0
    ∧ (∀ i, i < dates.length → (strptimeDMY (dates.getD i [])).isSome = true →
        (standardize_dates dates).1.getD i [] = dates.getD i []
        ∧ (i + 2, dates.getD i []) ∈ (standardize_dates dates).2.errors) := by
  constructor
  · exact standardizeAux_already 0 dates
  · intro i hi hc
    obtain ⟨d, hd⟩ := Option.isSome_iff_exists.mp hc
    have hp : parse_date_with_multiple_formats (dates.getD i []) = none :=
      canonical_parse_none hd
    constructor
    · show (standardizeAux 0 dates).1.getD i [] = dates.getD i []
      rw [standardizeAux_fst]
      rw [List.getD_eq_getElem?_getD, List.getElem?_map,
        List.getElem?_eq_getElem hi]
      simp only [Option.map_some', Option.getD_some]
      rw [List.getD_eq_getElem?_getD, List.getElem?_eq_getElem hi] at hp ⊢
      simpa using standardizeCell_of_parse_none (by simpa using hp)
    · have := standardizeAux_errors_mem dates 0 i hi hp
      simpa using this

/-- Claim C1, witness for the amended claim at the canonical input
`13/01/2015`. -/
theorem c1_canonical_round_trip_witness :
    (standardize_dates [("13/01/2015".toList)]).2.already_standard = 0
    ∧ (standardize_dates [("13/01/2015".toList)]).1.getD 0 [] = "13/01/2015".toList
    ∧ (2, "13/01/2015".toList) ∈ (standardize_dates [("13/01/2015".toList)]).2.errors :=
  ⟨(c1_canonical_round_trip [("13/01/2015".toList)]).1,
    ((c1_canonical_round_trip [("13/01/2015".toList)]).2 0 (by decide) (by decide)).1,
    ((c1_canonical_round_trip [("13/01/2015".toList)]).2 0 (by decide) (by decide)).2⟩

/-- Claim C2: the two parser variants disagree on `2015-01-13`.
`parse_date_with_multiple_formats` (validate_stock_data.py) parses it as
13 January 2015 via `%Y-%m-%d`, while `parse_mixed_date`
(convert_dates.py) matches the regex `\d{4}-\d{2}-\d{2}` and then applies
the format string `"%Y-%d-%m"`, under which the trailing `13` is rejected
as a month, so it raises `ValueError` — contradicting its own docstring,
which advertises `YYYY-MM-DD` input. -/
theorem c2_parser_variants_disagree :
    parse_date_with_multiple_formats ("2015-01-13".toList) = some ⟨2015, 1, 13⟩
    ∧ parse_mixed_date ("2015-01-13".toList) = none := by
  refine ⟨by decide, by decide⟩

/-- Claim C7: the candidate formats are tried in the fixed order
`%Y-%m-%d`, then `%m-%d-%Y`, and the first match wins; the ambiguous
string `03-04-2015` resolves to month 3, day 4, even though the swapped
reading (3 April 2015) is also a valid calendar date. -/
theorem c7_first_format_priority :
    (∀ s d, parseFmtYMD s = some d → parse_date_with_multiple_formats s = some d)
    ∧ parse_date_with_multiple_formats ("03-04-2015".toList) = some ⟨2015, 3, 4⟩
    ∧ validDate 2015 4 3 = true := by
  refine ⟨?_, by decide, by decide⟩
  intro s d h
  unfold parse_date_with_multiple_formats
  rw [h]

/-- Claim C7, witness: the priority rule applied at `2015-12-31`. -/
theorem c7_first_format_priority_witness :
    parse_date_with_multiple_formats ("2015-12-31".toList) = some ⟨2015, 12, 31⟩ :=
  c7_first_format_priority.1 _ _ (by decide)

/-- Claim C8: a raw date string matching no candidate format is kept
verbatim in the output column and appended to the error list with display
row number equal to its 0-based index plus 2. -/
theorem c8_unparsable_kept_verbatim (dates : List (List Char)) (i : Nat)
    (hi : i < dates.length)
    (hp : parse_date_with_multiple_formats (dates.getD i []) = none) :
    (standardize_dates dates).1.getD i [] = dates.getD i []
    ∧ (i + 2, dates.getD i []) ∈ (standardize_dates dates).2.errors := by
  constructor
  · show (standardizeAux 0 dates).1.getD i [] = dates.getD i []
    rw [standardizeAux_fst]
    rw [List.getD_eq_getElem?_getD, List.getElem?_map, List.getElem?_eq_getElem hi]
    simp only [Option.map_some', Option.getD_some]
    rw [List.getD_eq_getElem?_getD, List.getElem?_eq_getElem hi] at hp ⊢
    simpa using standardizeCell_of_parse_none (by simpa using hp)
  · have := standardizeAux_errors_mem dates 0 i hi hp
    simpa using this

/-- Claim C8, witness: the first data row of a file whose date is the
unparsable string `not-a-date` reports as row 2. -/
theorem c8_unparsable_kept_verbatim_witness :
    (standardize_dates [("not-a-date".toList)]).1.getD 0 [] = "not-a-date".toList
    ∧ (2, "not-a-date".toList) ∈ (standardize_dates [("not-a-date".toList)]).2.errors :=
  c8_unparsable_kept_verbatim [("not-a-date".toList)] 0 (by decide) (by decide)

/-- Claim C10: no string accepted by a dash-separated candidate format can
equal its slash-separated dd/mm/yyyy rendering, so `already_standard` is 0
on every input, every successfully parsed date is counted as `converted`,
the unparsed raw values are exactly the error-list values, and every
canonical-format input fails both candidate formats (hence is routed to
the error list). -/
theorem c10_already_standard_is_zero (dates : List (List Char)) :
    (standardize_dates dates).2.already_standard = 0
    ∧ (standardize_dates dates).2.converted
        = (dates.filter (fun s => (parse_date_with_multiple_formats s).isSome)).length
    ∧ (standardize_dates dates).2.errors.map Prod.snd
        = dates.filter (fun s => (parse_date_with_multiple_formats s).isNone)
    ∧ (∀ s d, strptimeDMY s = some d → parse_date_with_multiple_formats s = none) :=
  ⟨standardizeAux_already 0 dates, standardizeAux_converted 0 dates,
    standardizeAux_errors_map 0 dates, fun _ _ hd => canonical_parse_none hd⟩

/-- Claim C10, witness: the canonical-format string `31/12/2015` fails
both candidate formats. -/
theorem c10_already_standard_is_zero_witness :
    parse_date_with_multiple_formats ("31/12/2015".toList) = none :=
  (c10_already_standard_is_zero []).2.2.2 ("31/12/2015".toList) ⟨2015, 12, 31⟩ (by decide)

/-! ### Lemmas about `check_timeseries_sequence` -/

theorem seqAux_fst_le (l : List (List Char)) :
    ∀ k, ∀ p ∈ (seqAux k l).1, k ≤ p.1 ∧ p.1 < k + l.length := by
  induction l with
  | nil => intro k p hp; exact absurd hp (by simp [seqAux])
  | cons s rest ih =>
    intro k p hp
    rcases hs : strptimeDMY s with _ | d <;> rw [seqAux, hs] at hp
    · have := ih (k + 1) p hp
      simp only [List.length_cons]
      omega
    · rcases List.mem_cons.mp hp with h1 | h1
      · subst h1
        show k ≤ k ∧ k < k + (rest.length + 1)
        omega
      · have := ih (k + 1) p h1
        simp only [List.length_cons]
        omega

theorem seqAux_snd_bound (l : List (List Char)) :
    ∀ k, ∀ j ∈ (seqAux k l).2, k + 2 ≤ j := by
  induction l with
  | nil => intro k j hj; exact absurd hj (by simp [seqAux])
  | cons s rest ih =>
    intro k j hj
    rcases hs : strptimeDMY s with _ | d <;> rw [seqAux, hs] at hj
    · rcases List.mem_cons.mp hj with h1 | h1
      · omega
      · have := ih (k + 1) j h1; omega
    · have := ih (k + 1) j hj; omega

theorem seqAux_fst_parse (l : List (List Char)) :
    ∀ k, ∀ p ∈ (seqAux k l).1, strptimeDMY (l.getD (p.1 - k) []) = some p.2 := by
  induction l with
  | nil => intro k p hp; exact absurd hp (by simp [seqAux])
  | cons s rest ih =>
    intro k p hp
    rcases hs : strptimeDMY s with _ | d <;> rw [seqAux, hs] at hp
    · have hk := (seqAux_fst_le rest (k + 1) p hp).1
      have : p.1 - k = (p.1 - (k + 1)) + 1 := by omega
      rw [this, List.getD_cons_succ]
      exact ih (k + 1) p hp
    · rcases List.mem_cons.mp hp with h1 | h1
      · subst h1; simpa using hs
      · have hk := (seqAux_fst_le rest (k + 1) p h1).1
        have : p.1 - k = (p.1 - (k + 1)) + 1 := by omega
        rw [this, List.getD_cons_succ]
        exact ih (k + 1) p h1

theorem seqAux_fst_mem (l : List (List Char)) :
    ∀ k i d, i < l.length → strptimeDMY (l.getD i []) = some d →
      (k + i, d) ∈ (seqAux k l).1 := by
  induction l with
  | nil => intro k i d hi; exact absurd hi (by simp)
  | cons s rest ih =>
    intro k i d hi hparse
    cases i with
    | zero =>
      simp only [List.getD_cons_zero] at hparse
      simp [seqAux, hparse]
    | succ i =>
      simp only [List.getD_cons_succ] at hparse
      have hmem := ih (k + 1) i d (by simpa using Nat.lt_of_succ_lt_succ hi) hparse
      have : k + (i + 1) = k + 1 + i := by omega
      rw [this]
      rcases hs : strptimeDMY s with _ | d2 <;> simp [seqAux, hs, hmem]

theorem seqAux_fst_pairwise (l : List (List Char)) :
    ∀ k, (seqAux k l).1.Pairwise (fun p q => p.1 < q.1) := by
  induction l with
  | nil => intro k; simp [seqAux]
  | cons s rest ih =>
    intro k
    rcases hs : strptimeDMY s with _ | d <;> simp only [seqAux, hs]
    · exact ih (k + 1)
    · exact List.Pairwise.cons
        (fun q hq => by have := (seqAux_fst_le rest (k + 1) q hq).1; omega)
        (ih (k + 1))

theorem seqAux_snd_mem (l : List (List Char)) :
    ∀ k j, j ∈ (seqAux k l).2 →
      ∃ i, i < l.length ∧ j = k + i + 2 ∧ strptimeDMY (l.getD i []) = none := by
  induction l with
  | nil => intro k j hj; exact absurd hj (by simp [seqAux])
  | cons s rest ih =>
    intro k j hj
    rcases hs : strptimeDMY s with _ | d <;> rw [seqAux, hs] at hj
    · rcases List.mem_cons.mp hj with h1 | h1
      · exact ⟨0, by simp, by omega, by simpa using hs⟩
      · obtain ⟨i, hi, hji, hpi⟩ := ih (k + 1) j h1
        exact ⟨i + 1, by simpa using Nat.succ_lt_succ hi, by omega, by simpa using hpi⟩
    · obtain ⟨i, hi, hji, hpi⟩ := ih (k + 1) j hj
      exact ⟨i + 1, by simpa using Nat.succ_lt_succ hi, by omega, by simpa using hpi⟩

theorem seqAux_snd_count (l : List (List Char)) :
    ∀ k i, i < l.length → strptimeDMY (l.getD i []) = none →
      (seqAux k l).2.count (k + i + 2) = 1 := by
  induction l with
  | nil => intro k i hi; exact absurd hi (by simp)
  | cons s rest ih =>
    intro k i hi hparse
    cases i with
    | zero =>
      simp only [List.getD_cons_zero] at hparse
      rw [seqAux, hparse]
      simp only [List.count_cons]
      have hzero : (seqAux (k + 1) rest).2.count (k + 0 + 2) = 0 :=
        List.count_eq_zero.mpr (fun hmem => by
          have := seqAux_snd_bound rest (k + 1) _ hmem; omega)
      simp [hzero]
    | succ i =>
      simp only [List.getD_cons_succ] at hparse
      have hcount := ih (k + 1) i (by simpa using Nat.lt_of_succ_lt_succ hi) hparse
      have harith : k + 1 + i + 2 = k + (i + 1) + 2 := by omega
      rw [harith] at hcount
      rcases hs : strptimeDMY s with _ | d <;> rw [seqAux, hs]
      · simp only [List.count_cons]
        rw [hcount]
        have : ¬ (k + (i + 1) + 2 = k + 2) := by omega
        simp [this]
      · exact hcount

theorem dateLT_irrefl (a : Date) : dateLT a a = false := by
  simp [dateLT]

theorem orderViolations_mem (ps : List (Nat × Date)) : ∀ j : Nat,
    (j ∈ orderViolations ps ↔ ∃ (k : Nat) (hk : k + 1 < ps.length),
      j = (ps.get ⟨k + 1, hk⟩).1 + 2
        ∧ dateLT (ps.get ⟨k + 1, hk⟩).2 (ps.get ⟨k, Nat.lt_of_succ_lt hk⟩).2 = true) := by
  induction ps with
  | nil => intro j; constructor
           · intro h; exact absurd h (by simp [orderViolations])
           · rintro ⟨k, hk, -⟩; exact absurd hk (by simp)
  | cons p rest ih =>
    cases rest with
    | nil =>
      intro j
      constructor
      · intro h; exact absurd h (by simp [orderViolations])
      · rintro ⟨k, hk, -⟩
        simp only [List.length_cons, List.length_nil] at hk
        omega
    | cons q rest2 =>
      intro j
      constructor
      · intro hj
        rcases List.mem_append.mp hj with h1 | h1
        · by_cases hlt : dateLT q.2 p.2 = true
          · rw [if_pos hlt] at h1
            have hj2 : j = q.1 + 2 := by simpa using h1
            exact ⟨0, by simp, by simpa using hj2, by simpa using hlt⟩
          · rw [if_neg hlt] at h1
            exact absurd h1 (by simp)
        · obtain ⟨k, hk, hj2, hlt⟩ := (ih j).mp h1
          refine ⟨k + 1, by simpa using Nat.succ_lt_succ hk, ?_, ?_⟩
          · simpa using hj2
          · simpa using hlt
      · rintro ⟨k, hk, hj2, hlt⟩
        cases k with
        | zero =>
          simp only [List.get] at hj2 hlt
          apply List.mem_append.mpr
          left
          rw [if_pos hlt, hj2]
          simp
        | succ k =>
          apply List.mem_append.mpr
          right
          refine (ih j).mpr ⟨k, by simpa using Nat.lt_of_succ_lt_succ hk, ?_, ?_⟩
          · simpa using hj2
          · simpa using hlt

theorem check_timeseries_snd (dates : List (List Char)) :
    (check_timeseries_sequence dates).2
      = (seqAux 0 dates).2 ++ orderViolations (seqAux 0 dates).1 := rfl

/-- Claim C6: in the sequence validator, an unparsable date is reported
exactly once and excluded from order comparisons (which run over the
parsable rows only, in order); a parsable row is reported exactly when
its date is strictly earlier than the previous parsable row's date, so
equal consecutive dates produce no violation. -/
theorem c6_sequence_policy (dates : List (List Char)) :
    (∀ i, i < dates.length → strptimeDMY (dates.getD i []) = none →
      (check_timeseries_sequence dates).2.count (i + 2) = 1)
    ∧ (∀ i d, i < dates.length → strptimeDMY (dates.getD i []) = some d →
        (i, d) ∈ (seqAux 0 dates).1)
    ∧ (∀ k (hk : k + 1 < (seqAux 0 dates).1.length),
        ((((seqAux 0 dates).1.get ⟨k + 1, hk⟩).1 + 2 ∈ (check_timeseries_sequence dates).2)
          ↔ dateLT ((seqAux 0 dates).1.get ⟨k + 1, hk⟩).2
              ((seqAux 0 dates).1.get ⟨k, Nat.lt_of_succ_lt hk⟩).2 = true))
    ∧ (∀ k (hk : k + 1 < (seqAux 0 dates).1.length),
        ((seqAux 0 dates).1.get ⟨k + 1, hk⟩).2
            = ((seqAux 0 dates).1.get ⟨k, Nat.lt_of_succ_lt hk⟩).2 →
          ¬ ((((seqAux 0 dates).1.get ⟨k + 1, hk⟩).1 + 2)
              ∈ (check_timeseries_sequence dates).2)) := by
  have hov : ∀ j, j ∈ orderViolations (seqAux 0 dates).1 →
      ∃ p ∈ (seqAux 0 dates).1, j = p.1 + 2 := by
    intro j hj
    obtain ⟨k, hk, hj2, -⟩ := (orderViolations_mem (seqAux 0 dates).1 j).mp hj
    exact ⟨(seqAux 0 dates).1.get ⟨k + 1, hk⟩, List.get_mem _ _ _, hj2⟩
  have hiff : ∀ k (hk : k + 1 < (seqAux 0 dates).1.length),
      ((((seqAux 0 dates).1.get ⟨k + 1, hk⟩).1 + 2 ∈ (check_timeseries_sequence dates).2)
        ↔ dateLT ((seqAux 0 dates).1.get ⟨k + 1, hk⟩).2
            ((seqAux 0 dates).1.get ⟨k, Nat.lt_of_succ_lt hk⟩).2 = true) := by
    intro k hk
    rw [check_timeseries_snd]
    constructor
    · intro hmem
      rcases List.mem_append.mp hmem with h1 | h1
      · obtain ⟨i, hi, hji, hpi⟩ := seqAux_snd_mem dates 0 _ h1
        have hparse := seqAux_fst_parse dates 0 _
          (List.get_mem (seqAux 0 dates).1 (k + 1) hk)
        have hidx : ((seqAux 0 dates).1.get ⟨k + 1, hk⟩).1 = i := by omega
        rw [hidx] at hparse
        simp only [Nat.sub_zero] at hparse
        rw [hparse] at hpi
        exact absurd hpi (by simp)
      · obtain ⟨k2, hk2, hj2, hlt⟩ := (orderViolations_mem (seqAux 0 dates).1 _).mp h1
        have hpw := seqAux_fst_pairwise dates 0
        rw [List.pairwise_iff_get] at hpw
        have hkk : k2 = k := by
          by_contra hne
          rcases Nat.lt_or_ge k2 k with hlt2 | hge
          · have := hpw ⟨k2 + 1, hk2⟩ ⟨k + 1, hk⟩ (by simpa using Nat.succ_lt_succ hlt2)
            omega
          · have hgt : k < k2 := by omega
            have := hpw ⟨k + 1, hk⟩ ⟨k2 + 1, hk2⟩ (by simpa using Nat.succ_lt_succ hgt)
            omega
        subst hkk
        have : (⟨k2 + 1, hk2⟩ : Fin (seqAux 0 dates).1.length) = ⟨k2 + 1, hk⟩ := rfl
        rw [this] at hj2 hlt
        exact hlt
    · intro hlt
      exact List.mem_append.mpr (Or.inr
        ((orderViolations_mem (seqAux 0 dates).1 _).mpr ⟨k, hk, rfl, hlt⟩))
  refine ⟨?_, ?_, hiff, ?_⟩
  · intro i hi hparse
    rw [check_timeseries_snd, List.count_append]
    have h1 : (seqAux 0 dates).2.count (i + 2) = 1 := by
      have := seqAux_snd_count dates 0 i hi hparse
      simpa using this
    have h2 : (orderViolations (seqAux 0 dates).1).count (i + 2) = 0 := by
      apply List.count_eq_zero.mpr
      intro hmem
      obtain ⟨p, hp, hj⟩ := hov _ hmem
      have hparse2 := seqAux_fst_parse dates 0 p hp
      have hip : p.1 = i := by omega
      rw [hip] at hparse2
      simp only [Nat.sub_zero] at hparse2
      rw [hparse] at hparse2
      exact absurd hparse2 (by simp)
    omega
  · intro i d hi hparse
    have := seqAux_fst_mem dates 0 i d hi hparse
    simpa using this
  · intro k hk heq hmem
    have := (hiff k hk).mp hmem
    rw [heq, dateLT_irrefl] at this
    exact absurd this (by simp)

/-- Claim C6, witness: with an unparsable first row and two equal parsable
dates following it, the failure row 2 is reported exactly once and the
second parsable row (display row 4) is not reported. -/
theorem c6_sequence_policy_witness :
    (check_timeseries_sequence
        ["bad".toList, "01/01/2015".toList, "01/01/2015".toList]).2.count 2 = 1
    ∧ ¬ ((4 : Nat) ∈ (check_timeseries_sequence
        ["bad".toList, "01/01/2015".toList, "01/01/2015".toList]).2) :=
  ⟨(c6_sequence_policy ["bad".toList, "01/01/2015".toList, "01/01/2015".toList]).1
      0 (by decide) (by decide),
    (c6_sequence_policy ["bad".toList, "01/01/2015".toList, "01/01/2015".toList]).2.2.2
      0 (by decide) (by decide)⟩

/-! ### Lemmas about missing-value runs -/

theorem missingIndices_mem {v : Type} (col : List (Option v)) (i : Nat) :
    i ∈ missingIndices col ↔ i < col.length ∧ (col.getD i none).isNone = true := by
  simp [missingIndices, List.mem_filter, List.mem_range]

theorem missingIndices_pairwise {v : Type} (col : List (Option v)) :
    (missingIndices col).Pairwise (· < ·) :=
  (List.pairwise_lt_range col.length).filter _

theorem chain_forall_lt {cur : Nat} {L : List Nat}
    (h : List.Chain (· < ·) cur L) : ∀ j ∈ L, cur < j := by
  intro j hj
  exact (List.pairwise_cons.mp (List.chain_iff_pairwise.mp h)).1 j hj

/-- Characterization of the grouping loop: with the invariants of
`impute_missing_values` (the collected block `start..cur` satisfies `P`,
the remaining indices are sorted, above `cur`, satisfy `P`, and together
with the block contain every `P`-index at or above `start`), the produced
`(s, e)` pairs are exactly the maximal `P`-blocks at or above `start`. -/
theorem groupRunsAux_mem_iff (P : Nat → Prop) :
    ∀ (L : List Nat) (start cur : Nat),
      start ≤ cur →
      (∀ i, start ≤ i → i ≤ cur → P i) →
      List.Chain (· < ·) cur L →
      (∀ j ∈ L, P j) →
      (∀ i, P i → i < start ∨ (start ≤ i ∧ i ≤ cur) ∨ i ∈ L) →
      (start = 0 ∨ ¬ P (start - 1)) →
      ∀ s e, ((s, e) ∈ groupRunsAux start cur L ↔
        (start ≤ s ∧ s ≤ e ∧ (∀ i, s ≤ i → i ≤ e → P i)
          ∧ (s = 0 ∨ ¬ P (s - 1)) ∧ ¬ P (e + 1))) := by
  intro L
  induction L with
  | nil =>
    intro start cur hsc hseg hchain hLP hcomp hmaxL s e
    simp only [groupRunsAux, List.mem_singleton, Prod.mk.injEq]
    constructor
    · rintro ⟨rfl, rfl⟩
      refine ⟨le_refl _, hsc, hseg, hmaxL, ?_⟩
      intro hPe
      rcases hcomp _ hPe with h1 | h1 | h1
      · omega
      · omega
      · exact absurd h1 (by simp)
    · rintro ⟨hge, hse, hseg2, hm1, hm2⟩
      have hPs : P s := hseg2 s (le_refl _) hse
      have hscur : s ≤ cur := by
        rcases hcomp s hPs with h1 | h1 | h1
        · omega
        · omega
        · exact absurd h1 (by simp)
      have hs_start : s = start := by
        by_contra hne
        have hlt : start < s := lt_of_le_of_ne hge (Ne.symm hne)
        have hP1 : P (s - 1) := hseg (s - 1) (by omega) (by omega)
        rcases hm1 with h0 | hnp
        · omega
        · exact hnp hP1
      have he_cur : e = cur := by
        rcases Nat.lt_trichotomy e cur with h1 | h1 | h1
        · exact absurd (hseg (e + 1) (by omega) (by omega)) hm2
        · exact h1
        · have hP : P (cur + 1) := hseg2 (cur + 1) (by omega) (by omega)
          rcases hcomp _ hP with h2 | h2 | h2
          · omega
          · omega
          · exact absurd h2 (by simp)
      exact ⟨hs_start, he_cur⟩
  | cons j rest ih =>
    intro start cur hsc hseg hchain hLP hcomp hmaxL s e
    have hcurj : cur < j := (List.chain_cons.mp hchain).1
    have hchain2 : List.Chain (· < ·) j rest := (List.chain_cons.mp hchain).2
    have hrest_gt : ∀ x ∈ rest, j < x := chain_forall_lt hchain2
    by_cases hj : j = cur + 1
    · simp only [groupRunsAux, if_pos hj]
      subst hj
      refine ih start (cur + 1) (by omega) ?_ hchain2 (fun x hx => hLP x (by simp [hx]))
        ?_ hmaxL s e
      · intro i h1 h2
        rcases Nat.lt_or_ge i (cur + 1) with h3 | h3
        · exact hseg i h1 (by omega)
        · have : i = cur + 1 := by omega
          subst this
          exact hLP _ (by simp)
      · intro i hPi
        rcases hcomp i hPi with h1 | h1 | h1
        · exact Or.inl h1
        · exact Or.inr (Or.inl ⟨h1.1, by omega⟩)
        · rcases List.mem_cons.mp h1 with h2 | h2
          · exact Or.inr (Or.inl ⟨by omega, by omega⟩)
          · exact Or.inr (Or.inr h2)
    · have hj2 : cur + 1 < j := by omega
      simp only [groupRunsAux, if_neg hj, List.mem_cons, Prod.mk.injEq]
      have hPj : P j := hLP j (by simp)
      have hmaxLj : j = 0 ∨ ¬ P (j - 1) := by
        right
        intro hP
        rcases hcomp _ hP with h1 | h1 | h1
        · omega
        · omega
        · rcases List.mem_cons.mp h1 with h2 | h2
          · omega
          · have := hrest_gt _ h2; omega
      have hnotPcur1 : ¬ P (cur + 1) := by
        intro hP
        rcases hcomp _ hP with h1 | h1 | h1
        · omega
        · omega
        · rcases List.mem_cons.mp h1 with h2 | h2
          · omega
          · have := hrest_gt _ h2; omega
      have ihj := ih j j (le_refl j)
        (fun i h1 h2 => by
          have : i = j := by omega
          subst this
          exact hPj)
        hchain2 (fun x hx => hLP x (by simp [hx]))
        (fun i hPi => by
          rcases hcomp i hPi with h1 | h1 | h1
          · exact Or.inl (by omega)
          · exact Or.inl (by omega)
          · rcases List.mem_cons.mp h1 with h2 | h2
            · exact Or.inr (Or.inl (by omega))
            · exact Or.inr (Or.inr h2))
        hmaxLj s e
      constructor
      · rintro (⟨rfl, rfl⟩ | h1)
        · exact ⟨le_refl _, hsc, hseg, hmaxL, hnotPcur1⟩
        · obtain ⟨hge, hse, hseg2, hm1, hm2⟩ := ihj.mp h1
          exact ⟨by omega, hse, hseg2, hm1, hm2⟩
      · rintro ⟨hge, hse, hseg2, hm1, hm2⟩
        have hPs : P s := hseg2 s (le_refl _) hse
        rcases hcomp s hPs with h1 | h1 | h1
        · omega
        · left
          have hs_start : s = start := by
            by_contra hne
            have hlt : start < s := lt_of_le_of_ne hge (Ne.symm hne)
            have hP1 : P (s - 1) := hseg (s - 1) (by omega) (by omega)
            rcases hm1 with h0 | hnp
            · omega
            · exact hnp hP1
          have he_cur : e = cur := by
            rcases Nat.lt_trichotomy e cur with h2 | h2 | h2
            · exact absurd (hseg (e + 1) (by omega) (by omega)) hm2
            · exact h2
            · exact absurd (hseg2 (cur + 1) (by omega) (by omega)) hnotPcur1
          exact ⟨hs_start, he_cur⟩
        · right
          rcases List.mem_cons.mp h1 with h2 | h2
          · exact ihj.mpr ⟨by omega, hse, hseg2, hm1, hm2⟩
          · have := hrest_gt _ h2
            exact ihj.mpr ⟨by omega, hse, hseg2, hm1, hm2⟩

theorem groupRunsAux_bounds (L : List Nat) :
    ∀ start cur, start ≤ cur → List.Chain (· < ·) cur L →
      ∀ r ∈ groupRunsAux start cur L, start ≤ r.1 ∧ r.1 ≤ r.2 := by
  induction L with
  | nil =>
    intro start cur hsc _ r hr
    have : r = (start, cur) := by simpa [groupRunsAux] using hr
    subst this
    exact ⟨le_refl _, hsc⟩
  | cons j rest ih =>
    intro start cur hsc hchain r hr
    have hcurj : cur < j := (List.chain_cons.mp hchain).1
    have hchain2 : List.Chain (· < ·) j rest := (List.chain_cons.mp hchain).2
    by_cases hj : j = cur + 1
    · rw [groupRunsAux, if_pos hj] at hr
      subst hj
      exact ih start (cur + 1) (by omega) hchain2 r hr
    · rw [groupRunsAux, if_neg hj] at hr
      rcases List.mem_cons.mp hr with h1 | h1
      · subst h1
        exact ⟨le_refl _, hsc⟩
      · have := ih j j (le_refl j) hchain2 r h1
        exact ⟨by omega, this.2⟩

theorem groupRunsAux_pairwise (L : List Nat) :
    ∀ start cur, start ≤ cur → List.Chain (· < ·) cur L →
      (groupRunsAux start cur L).Pairwise (fun r1 r2 => r1.2 + 1 < r2.1) := by
  induction L with
  | nil => intro start cur _ _; simp [groupRunsAux]
  | cons j rest ih =>
    intro start cur hsc hchain
    have hcurj : cur < j := (List.chain_cons.mp hchain).1
    have hchain2 : List.Chain (· < ·) j rest := (List.chain_cons.mp hchain).2
    by_cases hj : j = cur + 1
    · rw [groupRunsAux, if_pos hj]
      subst hj
      exact ih start (cur + 1) (by omega) hchain2
    · rw [groupRunsAux, if_neg hj]
      refine List.Pairwise.cons ?_ (ih j j (le_refl j) hchain2)
      intro r hr
      have := (groupRunsAux_bounds rest j j (le_refl j) hchain2 r hr).1
      omega

/-- The runs produced by `impute_missing_values` are exactly the maximal
runs of missing cells of the column. -/
theorem groupRuns_mem_iff {v : Type} (col : List (Option v)) (s e : Nat) :
    (s, e) ∈ groupRuns (missingIndices col) ↔ MaxRun col s e := by
  have hiff : ∀ n, n ∈ missingIndices col
      ↔ (n < col.length ∧ (col.getD n none).isNone = true) :=
    fun n => missingIndices_mem col n
  have htrans : ∀ s e, (s ≤ e ∧ (∀ i, s ≤ i → i ≤ e → i ∈ missingIndices col)
      ∧ (s = 0 ∨ ¬ (s - 1) ∈ missingIndices col) ∧ ¬ (e + 1) ∈ missingIndices col)
      ↔ MaxRun col s e := by
    intro s e
    constructor
    · rintro ⟨hse, hseg, hm1, hm2⟩
      have helen : e < col.length := ((hiff e).mp (hseg e hse (le_refl e))).1
      refine ⟨hse, helen, ?_, ?_, ?_⟩
      · intro jj hjj
        exact ((hiff (s + jj)).mp (hseg (s + jj) (by omega) (by omega))).2
      · rcases hm1 with h0 | hnp
        · exact Or.inl h0
        · right
          have hlt : s - 1 < col.length := by omega
          rcases hx : col.getD (s - 1) none with _ | val
          · exact absurd ((hiff (s - 1)).mpr ⟨hlt, by rw [hx]; rfl⟩) hnp
          · simp
      · by_cases hl : e + 1 < col.length
        · right
          rcases hx : col.getD (e + 1) none with _ | val
          · exact absurd ((hiff (e + 1)).mpr ⟨hl, by rw [hx]; rfl⟩) hm2
          · simp
        · exact Or.inl (by omega)
    · rintro ⟨hse, helen, hmiss, hleft, hright⟩
      refine ⟨hse, ?_, ?_, ?_⟩
      · intro i h1 h2
        refine (hiff i).mpr ⟨by omega, ?_⟩
        have := hmiss (i - s) (by omega)
        rwa [show s + (i - s) = i by omega] at this
      · rcases hleft with h0 | hsome
        · exact Or.inl h0
        · right
          intro hmem
          have := ((hiff (s - 1)).mp hmem).2
          rw [Option.isNone_iff_eq_none] at this
          rw [this] at hsome
          exact absurd hsome (by simp)
      · intro hmem
        obtain ⟨hlt, hnone⟩ := (hiff (e + 1)).mp hmem
        rcases hright with h0 | hsome
        · omega
        · rw [Option.isNone_iff_eq_none] at hnone
          rw [hnone] at hsome
          exact absurd hsome (by simp)
  cases hMI : missingIndices col with
  | nil =>
    simp only [groupRuns]
    constructor
    · intro h
      exact absurd h (by simp)
    · intro h
      obtain ⟨hse, helen, hmiss, -, -⟩ := h
      have hs : s ∈ missingIndices col := (hiff s).mpr ⟨by omega, by
        have := hmiss 0 (by omega)
        simpa using this⟩
      rw [hMI] at hs
      exact absurd hs (by simp)
  | cons i0 rest =>
    have hpw : (i0 :: rest).Pairwise (· < ·) := hMI ▸ missingIndices_pairwise col
    have hchain : List.Chain (· < ·) i0 rest := List.chain_iff_pairwise.mpr hpw
    have hmem2 : ∀ n, n ∈ (i0 :: rest) ↔ n ∈ missingIndices col := by
      intro n; rw [hMI]
    have hspec := groupRunsAux_mem_iff (fun n => n ∈ (i0 :: rest)) rest i0 i0
      (le_refl i0)
      (fun i h1 h2 => by
        have : i = i0 := by omega
        subst this
        simp)
      hchain
      (fun x hx => by simp [hx])
      (fun i hPi => by
        rcases List.mem_cons.mp hPi with h1 | h1
        · exact Or.inr (Or.inl (by omega))
        · exact Or.inr (Or.inr h1))
      (by
        by_cases h0 : i0 = 0
        · exact Or.inl h0
        · right
          intro hP
          rcases List.mem_cons.mp hP with h1 | h1
          · omega
          · have := (List.pairwise_cons.mp hpw).1 _ h1
            omega)
      s e
    rw [groupRuns, hspec]
    rw [← htrans s e]
    constructor
    · rintro ⟨hge, hse, hseg, hm1, hm2⟩
      refine ⟨hse, fun i h1 h2 => (hmem2 i).mp (hseg i h1 h2), ?_, ?_⟩
      · rcases hm1 with h0 | hnp
        · exact Or.inl h0
        · exact Or.inr (fun hmem => hnp ((hmem2 _).mpr hmem))
      · exact fun hmem => hm2 ((hmem2 _).mpr hmem)
    · rintro ⟨hse, hseg, hm1, hm2⟩
      have hPs : s ∈ (i0 :: rest) := (hmem2 s).mpr (hseg s (le_refl _) hse)
      have hge : i0 ≤ s := by
        rcases List.mem_cons.mp hPs with h1 | h1
        · omega
        · have := (List.pairwise_cons.mp hpw).1 _ h1
          omega
      refine ⟨hge, hse, fun i h1 h2 => (hmem2 i).mpr (hseg i h1 h2), ?_, ?_⟩
      · rcases hm1 with h0 | hnp
        · exact Or.inl h0
        · exact Or.inr (fun hmem => hnp ((hmem2 _).mp hmem))
      · exact fun hmem => hm2 ((hmem2 _).mp hmem)

theorem groupRuns_maxRun {v : Type} (col : List (Option v)) :
    ∀ r ∈ groupRuns (missingIndices col), MaxRun col r.1 r.2 := by
  intro r hr
  exact (groupRuns_mem_iff col r.1 r.2).mp hr

theorem groupRuns_pairwise {v : Type} (col : List (Option v)) :
    (groupRuns (missingIndices col)).Pairwise (fun r1 r2 => r1.2 + 1 < r2.1) := by
  cases hMI : missingIndices col with
  | nil => simp [groupRuns]
  | cons i0 rest =>
    have hpw : (i0 :: rest).Pairwise (· < ·) := hMI ▸ missingIndices_pairwise col
    have hchain : List.Chain (· < ·) i0 rest := List.chain_iff_pairwise.mpr hpw
    exact groupRunsAux_pairwise rest i0 i0 (le_refl i0) hchain

/-! ### Lemmas about forward and backward fill -/

theorem ffillAux_replicate_append {v : Type} (last : Option v) (k : Nat)
    (rest : List (Option v)) :
    ffillAux last (List.replicate k none ++ rest)
      = List.replicate k last ++ ffillAux last rest := by
  induction k with
  | zero => simp
  | succ k ihk => simp [List.replicate_succ, ffillAux, ihk]

theorem ffillAux_all_some {v : Type} (l : List (Option v)) :
    ∀ (last : Option v), (∀ x ∈ l, x ≠ none) → ffillAux last l = l := by
  induction l with
  | nil => intro last _; rfl
  | cons x xs ih =>
    intro last h
    cases x with
    | none => exact absurd rfl (h none (by simp))
    | some a => simp [ffillAux, ih (some a) (fun x hx => h x (by simp [hx]))]

theorem bfill_all_some {v : Type} (l : List (Option v))
    (h : ∀ x ∈ l, x ≠ none) : bfill l = l := by
  unfold bfill
  rw [ffillAux_all_some _ none (fun x hx => h x (List.mem_reverse.mp hx))]
  exact List.reverse_reverse l

theorem ffillAux_replicate_none {v : Type} (k : Nat) :
    ffillAux (none : Option v) (List.replicate k none) = List.replicate k none := by
  simpa [ffillAux] using ffillAux_replicate_append (v := v) none k []

theorem getD_replicate {v : Type} (k i : Nat) (x d : Option v) (h : i < k) :
    (List.replicate k x).getD i d = x := by
  rw [List.getD_eq_getElem?_getD, List.getElem?_eq_getElem (by simpa using h)]
  simp

/-! ### The slice decomposition of one imputation step -/

theorem drop_eq_replicate_append {v : Type} (k : Nat) :
    ∀ (a : Nat) (l : List (Option v)), a + k ≤ l.length →
      (∀ j, j < k → (l.getD (a + j) none).isNone = true) →
      l.drop a = List.replicate k none ++ l.drop (a + k) := by
  induction k with
  | zero => intro a l _ _; simp
  | succ k ihk =>
    intro a l h1 h2
    have ha : a < l.length := by omega
    rw [List.drop_eq_getElem_cons ha]
    have hget : l[a] = none := by
      have := h2 0 (by omega)
      rw [Nat.add_zero] at this
      rw [List.getD_eq_getElem?_getD, List.getElem?_eq_getElem ha] at this
      simpa using this
    rw [hget]
    have hrec := ihk (a + 1) l (by omega) (fun j hj => by
      have := h2 (j + 1) (by omega)
      rwa [show a + (j + 1) = a + 1 + j by omega] at this)
    rw [hrec]
    rw [show a + 1 + k = a + (k + 1) by omega]
    simp [List.replicate_succ]

theorem ffillAux_replicate {v : Type} (last : Option v) (k : Nat) :
    ffillAux last (List.replicate k none) = List.replicate k last := by
  simpa [ffillAux] using ffillAux_replicate_append last k []

/-- Filling a window with present borders on both sides: every cell of the
run takes the left border value (forward fill wins). -/
theorem fill_both {v : Type} (w bv : v) (cnt : Nat) :
    bfill (ffill (some w :: (List.replicate cnt none ++ [some bv])))
      = some w :: (List.replicate cnt (some w) ++ [some bv]) := by
  have h1 : ffill (some w :: (List.replicate cnt none ++ [some bv]))
      = some w :: (List.replicate cnt (some w) ++ [some bv]) := by
    show ffillAux none _ = _
    simp only [ffillAux, ffillAux_replicate_append]
  rw [h1]
  apply bfill_all_some
  intro x hx
  rcases List.mem_cons.mp hx with h | h
  · subst h; simp
  · rcases List.mem_append.mp h with h | h
    · rw [List.eq_of_mem_replicate h]; simp
    · have hh : x = some bv := by simpa using h
      subst hh; simp

/-- Filling a window with only a left border: forward fill resolves it. -/
theorem fill_left_only {v : Type} (w : v) (cnt : Nat) :
    bfill (ffill (some w :: List.replicate cnt none))
      = some w :: List.replicate cnt (some w) := by
  have h1 : ffill (some w :: List.replicate cnt none)
      = some w :: List.replicate cnt (some w) := by
    show ffillAux none _ = _
    simp only [ffillAux, ffillAux_replicate]
  rw [h1]
  apply bfill_all_some
  intro x hx
  rcases List.mem_cons.mp hx with h | h
  · subst h; simp
  · rw [List.eq_of_mem_replicate h]; simp

/-- Filling a window with only a right border: backward fill resolves it. -/
theorem fill_right_only {v : Type} (bv : v) (cnt : Nat) :
    bfill (ffill (List.replicate cnt none ++ [some bv]))
      = List.replicate cnt (some bv) ++ [some bv] := by
  have h1 : ffill (List.replicate cnt none ++ [some bv])
      = List.replicate cnt none ++ [some bv] := by
    show ffillAux none _ = _
    simp only [ffillAux_replicate_append, ffillAux]
  rw [h1]
  unfold bfill
  rw [List.reverse_append, List.reverse_replicate]
  simp only [List.reverse_cons, List.reverse_nil, List.nil_append,
    List.singleton_append]
  simp only [ffillAux, ffillAux_replicate]
  rw [List.reverse_cons, List.reverse_replicate]

/-- Filling a window with no present value at all leaves it missing. -/
theorem fill_none {v : Type} (cnt : Nat) :
    bfill (ffill (List.replicate cnt (none : Option v)))
      = List.replicate cnt none := by
  have h1 : ffill (List.replicate cnt (none : Option v)) = List.replicate cnt none :=
    ffillAux_replicate none cnt
  rw [h1]
  unfold bfill
  rw [List.reverse_replicate, ffillAux_replicate, List.reverse_replicate]

theorem getD_eq_some_getElem {v : Type} {l : List (Option v)} {n : Nat}
    (h : n < l.length) : l.getD n none = l[n] := by
  rw [List.getD_eq_getElem?_getD, List.getElem?_eq_getElem h]
  rfl

theorem take_left_of_length {v : Type} (l r : List (Option v)) (n : Nat)
    (h : l.length = n) : (l ++ r).take n = l := by
  subst h
  exact List.take_left l r

/-- One imputation step of `impute_missing_values` on a maximal run:
slicing the window, forward- and backward-filling it and writing the run
rows back is the same as overwriting the run with its reference value
(the present value left of the run, else the present value right of it,
else `none`). -/
theorem imputeRun_eq {v : Type} (col : List (Option v)) (s e : Nat)
    (h : MaxRun col s e) :
    imputeRun col s e
      = writeBack col s e (List.replicate (e + 1 - s) (refVal col s e)) := by
  obtain ⟨hse, hlen, hmiss, hleft, hright⟩ := h
  have hdrop : col.drop s = List.replicate (e + 1 - s) none ++ col.drop (e + 1) := by
    have hd := drop_eq_replicate_append (e + 1 - s) s col (by omega) hmiss
    rwa [show s + (e + 1 - s) = e + 1 by omega] at hd
  show writeBack col s e
      (sliceIncl (bfill (ffill (sliceIncl col (s - 1) (min (col.length - 1) (e + 1)))))
        (s - (s - 1)) (e - (s - 1)))
    = writeBack col s e (List.replicate (e + 1 - s) (refVal col s e))
  congr 1
  rcases Nat.eq_zero_or_pos s with hs0 | hspos
  · subst hs0
    simp only [Nat.zero_sub, Nat.sub_zero]
    rw [show (0 : Nat) - 1 = 0 by omega] at *
    have hrv : refVal col 0 e = col.getD (e + 1) none := by simp [refVal]
    by_cases hB : e + 1 < col.length
    · have hce : min (col.length - 1) (e + 1) = e + 1 := by omega
      rw [hce]
      obtain ⟨bv, hbv⟩ : ∃ bv, col.getD (e + 1) none = some bv := by
        rcases hright with h0 | hsome
        · omega
        · exact Option.isSome_iff_exists.mp hsome
      have hdropb : col.drop (e + 1) = some bv :: col.drop (e + 2) := by
        rw [List.drop_eq_getElem_cons hB]
        rw [← getD_eq_some_getElem hB, hbv]
      have hcol0 : col = List.replicate (e + 1) none ++ (some bv :: col.drop (e + 2)) := by
        have := hdrop
        rw [List.drop_zero, hdropb] at this
        rw [show e + 1 - 0 = e + 1 by omega] at this
        exact this
      have htemp : sliceIncl col 0 (e + 1)
          = List.replicate (e + 1) none ++ [some bv] := by
        unfold sliceIncl
        rw [List.drop_zero]
        conv_lhs => rw [hcol0]
        rw [show e + 1 + 1 - 0 = (List.replicate (e + 1) (none : Option v)).length + 1 by simp]
        rw [List.take_append]
        simp
      rw [htemp, fill_right_only]
      rw [hrv, hbv]
      unfold sliceIncl
      rw [List.drop_zero]
      exact take_left_of_length _ _ _ (by simp)
    · have hE : e + 1 = col.length := by omega
      have hce : min (col.length - 1) (e + 1) = e := by omega
      rw [hce]
      have hdropb : col.drop (e + 1) = [] := by
        rw [hE]; exact List.drop_length col
      have hcol0 : col = List.replicate (e + 1) none := by
        have := hdrop
        rw [List.drop_zero, hdropb] at this
        rw [show e + 1 - 0 = e + 1 by omega] at this
        simpa using this
      have htemp : sliceIncl col 0 e = List.replicate (e + 1) none := by
        unfold sliceIncl
        rw [List.drop_zero]
        rw [show e + 1 - 0 = e + 1 by omega]
        rw [List.take_of_length_le (by rw [hcol0]; simp)]
        exact hcol0
      rw [htemp, fill_none]
      rw [hrv, List.getD_eq_default _ _ (by omega)]
      unfold sliceIncl
      rw [List.drop_zero]
      exact List.take_of_length_le (by simp)
  · obtain ⟨w, hw⟩ : ∃ w, col.getD (s - 1) none = some w := by
      rcases hleft with h0 | hsome
      · omega
      · exact Option.isSome_iff_exists.mp hsome
    have hrv : refVal col s e = some w := by
      unfold refVal
      rw [if_pos hspos, hw]
    have hs1lt : s - 1 < col.length := by omega
    have hdrop1 : col.drop (s - 1)
        = some w :: (List.replicate (e + 1 - s) none ++ col.drop (e + 1)) := by
      rw [List.drop_eq_getElem_cons hs1lt]
      rw [← getD_eq_some_getElem hs1lt, hw]
      rw [show s - 1 + 1 = s by omega, hdrop]
    rw [show s - (s - 1) = 1 by omega, show e - (s - 1) = (e + 1 - s) by omega]
    by_cases hB : e + 1 < col.length
    · have hce : min (col.length - 1) (e + 1) = e + 1 := by omega
      rw [hce]
      obtain ⟨bv, hbv⟩ : ∃ bv, col.getD (e + 1) none = some bv := by
        rcases hright with h0 | hsome
        · omega
        · exact Option.isSome_iff_exists.mp hsome
      have hdropb : col.drop (e + 1) = some bv :: col.drop (e + 2) := by
        rw [List.drop_eq_getElem_cons hB]
        rw [← getD_eq_some_getElem hB, hbv]
      have htemp : sliceIncl col (s - 1) (e + 1)
          = some w :: (List.replicate (e + 1 - s) none ++ [some bv]) := by
        unfold sliceIncl
        rw [hdrop1, hdropb]
        rw [show e + 1 + 1 - (s - 1) = (e + 1 - s) + 1 + 1 by omega]
        rw [List.take_succ_cons]
        rw [show (e + 1 - s) + 1
            = (List.replicate (e + 1 - s) (none : Option v)).length + 1 by simp]
        rw [List.take_append]
        simp
      rw [htemp, fill_both]
      unfold sliceIncl
      rw [List.drop_succ_cons, List.drop_zero]
      rw [show e + 1 - s + 1 - 1 = e + 1 - s by omega]
      rw [hrv]
      exact take_left_of_length _ _ _ (by simp)
    · have hE : e + 1 = col.length := by omega
      have hce : min (col.length - 1) (e + 1) = e := by omega
      rw [hce]
      have hdropb : col.drop (e + 1) = [] := by
        rw [hE]; exact List.drop_length col
      have htemp : sliceIncl col (s - 1) e
          = some w :: List.replicate (e + 1 - s) none := by
        unfold sliceIncl
        rw [hdrop1, hdropb]
        rw [show e + 1 - (s - 1) = (e + 1 - s) + 1 by omega]
        rw [List.take_of_length_le (by simp)]
        simp
      rw [htemp, fill_left_only]
      unfold sliceIncl
      rw [List.drop_succ_cons, List.drop_zero]
      rw [show e + 1 - s + 1 - 1 = e + 1 - s by omega]
      rw [hrv]
      exact List.take_of_length_le (by simp)

theorem writeBack_length {v : Type} (col : List (Option v)) (s e : Nat)
    (vals : List (Option v)) (hv : vals.length = e + 1 - s) (hse : s ≤ e)
    (helen : e < col.length) :
    (writeBack col s e vals).length = col.length := by
  unfold writeBack
  rw [List.length_append, List.length_append, List.length_take, List.length_drop, hv]
  omega

theorem writeBack_getD {v : Type} (col : List (Option v)) (s e : Nat)
    (vals : List (Option v)) (hv : vals.length = e + 1 - s) (hse : s ≤ e)
    (helen : e < col.length) (i : Nat) :
    (writeBack col s e vals).getD i none
      = if i < s then col.getD i none
        else if i ≤ e then vals.getD (i - s) none
        else col.getD i none := by
  unfold writeBack
  have hts : (col.take s).length = s := by
    rw [List.length_take]; omega
  have hlen1 : (col.take s ++ vals).length = e + 1 := by
    rw [List.length_append, hts, hv]; omega
  by_cases h1 : i < s
  · rw [if_pos h1]
    rw [List.getD_append (col.take s ++ vals) (col.drop (e + 1)) none i (by omega)]
    rw [List.getD_append (col.take s) vals none i (by omega)]
    rw [List.getD_eq_getElem?_getD, List.getElem?_take, if_pos h1,
      ← List.getD_eq_getElem?_getD]
  · rw [if_neg h1]
    by_cases h2 : i ≤ e
    · rw [if_pos h2]
      rw [List.getD_append (col.take s ++ vals) (col.drop (e + 1)) none i (by omega)]
      rw [List.getD_append_right (col.take s) vals none i (by omega)]
      rw [hts]
    · rw [if_neg h2]
      rw [List.getD_append_right (col.take s ++ vals) (col.drop (e + 1)) none i
        (by omega)]
      rw [hlen1]
      rw [List.getD_eq_getElem?_getD, List.getD_eq_getElem?_getD, List.getElem?_drop]
      rw [show e + 1 + (i - (e + 1)) = i by omega]

theorem refVal_agree {v : Type} (col₀ cur : List (Option v)) (s e : Nat)
    (hR : MaxRun col₀ s e) (hlen : cur.length = col₀.length)
    (hsome : ∀ i, (col₀.getD i none).isSome = true →
      cur.getD i none = col₀.getD i none) :
    refVal cur s e = refVal col₀ s e := by
  obtain ⟨hse, helen, hmiss, hleft, hright⟩ := hR
  unfold refVal
  by_cases hs : 0 < s
  · rw [if_pos hs, if_pos hs]
    rcases hleft with h0 | hsome1
    · omega
    · exact hsome _ hsome1
  · rw [if_neg hs, if_neg hs]
    rcases hright with h0 | hsome1
    · rw [List.getD_eq_default _ _ (by omega), List.getD_eq_default _ _ (by omega)]
    · exact hsome _ hsome1

/-- Main loop invariant of `impute_missing_values`: processing a list of
pairwise-disjoint maximal runs of the original column fills every cell of
a run within the threshold with the run's reference value, leaves every
cell outside the listed runs untouched, leaves over-threshold runs
untouched, and preserves the length. -/
theorem imputeRuns_spec {v : Type} (maxC : Nat) (col₀ : List (Option v)) :
    ∀ (L : List (Nat × Nat)) (cur : List (Option v)),
      (∀ r ∈ L, MaxRun col₀ r.1 r.2) →
      L.Pairwise (fun r1 r2 => r1.2 + 1 < r2.1) →
      cur.length = col₀.length →
      (∀ r ∈ L, ∀ j, j < r.2 + 1 - r.1 → (cur.getD (r.1 + j) none).isNone = true) →
      (∀ i, (col₀.getD i none).isSome = true →
        cur.getD i none = col₀.getD i none) →
      ( (imputeRuns maxC L cur).1.length = cur.length
      ∧ (∀ s e, (s, e) ∈ L → e + 1 - s ≤ maxC → ∀ i, s ≤ i → i ≤ e →
          (imputeRuns maxC L cur).1.getD i none = refVal col₀ s e)
      ∧ (∀ i, (∀ s e, (s, e) ∈ L → ¬(s ≤ i ∧ i ≤ e)) →
          (imputeRuns maxC L cur).1.getD i none = cur.getD i none)
      ∧ (∀ s e, (s, e) ∈ L → maxC < e + 1 - s → ∀ i, s ≤ i → i ≤ e →
          (imputeRuns maxC L cur).1.getD i none = cur.getD i none) ) := by
  intro L
  induction L with
  | nil =>
    intro cur _ _ _ _ _
    refine ⟨rfl, ?_, ?_, ?_⟩
    · intro s e hmem
      exact absurd hmem (by simp)
    · intro i _
      rfl
    · intro s e hmem
      exact absurd hmem (by simp)
  | cons r rest ih =>
    obtain ⟨s, e⟩ := r
    intro cur hMR hpw hlen hmiss2 hsome
    have hR : MaxRun col₀ s e := hMR (s, e) (by simp)
    have hRrest : ∀ r ∈ rest, MaxRun col₀ r.1 r.2 := fun r hr => hMR r (by simp [hr])
    have hpw2 : rest.Pairwise (fun r1 r2 => r1.2 + 1 < r2.1) :=
      (List.pairwise_cons.mp hpw).2
    have hpwhead : ∀ r ∈ rest, e + 1 < r.1 :=
      fun r hr => (List.pairwise_cons.mp hpw).1 r hr
    obtain ⟨hse, helen, hmiss0, hleft0, hright0⟩ := hR
    have hR' : MaxRun col₀ s e := ⟨hse, helen, hmiss0, hleft0, hright0⟩
    by_cases hcnt : e + 1 - s ≤ maxC
    · have hcur_run : MaxRun cur s e := by
        refine ⟨hse, by omega, hmiss2 (s, e) (by simp), ?_, ?_⟩
        · rcases hleft0 with h0 | hs1
          · exact Or.inl h0
          · exact Or.inr (by rw [hsome _ hs1]; exact hs1)
        · rcases hright0 with h0 | hs1
          · exact Or.inl (by omega)
          · exact Or.inr (by rw [hsome _ hs1]; exact hs1)
      have hrva : refVal cur s e = refVal col₀ s e :=
        refVal_agree col₀ cur s e hR' hlen hsome
      have hcur2E : imputeRun cur s e
          = writeBack cur s e (List.replicate (e + 1 - s) (refVal col₀ s e)) := by
        rw [imputeRun_eq cur s e hcur_run, hrva]
      have hlen2 : (imputeRun cur s e).length = cur.length := by
        rw [hcur2E]
        exact writeBack_length cur s e _ (by simp) hse (by omega)
      have hget2 : ∀ i, (imputeRun cur s e).getD i none
          = if i < s then cur.getD i none
            else if i ≤ e then
              (List.replicate (e + 1 - s) (refVal col₀ s e)).getD (i - s) none
            else cur.getD i none := by
        intro i
        rw [hcur2E]
        exact writeBack_getD cur s e _ (by simp) hse (by omega) i
      have hih := ih (imputeRun cur s e) hRrest hpw2 (by omega)
        (by
          intro r hr j hj
          have hgt := hpwhead r hr
          rw [hget2]
          rw [if_neg (by omega), if_neg (by omega)]
          exact hmiss2 r (by simp [hr]) j hj)
        (by
          intro i hsome0
          have hnotrun : ¬ (s ≤ i ∧ i ≤ e) := by
            rintro ⟨h1, h2⟩
            have := hmiss0 (i - s) (by omega)
            rw [show s + (i - s) = i by omega] at this
            rw [Option.isNone_iff_eq_none] at this
            rw [this] at hsome0
            exact absurd hsome0 (by simp)
          rw [hget2]
          by_cases h1 : i < s
          · rw [if_pos h1]
            exact hsome i hsome0
          · rw [if_neg h1, if_neg (by omega)]
            exact hsome i hsome0)
      obtain ⟨ihlen, ihfill, ihsame, ihskip⟩ := hih
      have hstep : imputeRuns maxC ((s, e) :: rest) cur
          = ((imputeRuns maxC rest (imputeRun cur s e)).1,
            { (imputeRuns maxC rest (imputeRun cur s e)).2 with
              imputed := (s + 2, e + 2, e + 1 - s)
                :: (imputeRuns maxC rest (imputeRun cur s e)).2.imputed }) := by
        simp only [imputeRuns, if_pos hcnt]
      refine ⟨?_, ?_, ?_, ?_⟩
      · rw [hstep]
        simpa using ihlen.trans hlen2
      · intro s1 e1 hmem hcnt1 i h1 h2
        rw [hstep]
        simp only
        rcases List.mem_cons.mp hmem with hhead | hrest
        · obtain ⟨rfl, rfl⟩ : s1 = s ∧ e1 = e := by
            have hfst : s1 = s := congrArg Prod.fst hhead
            have hsnd : e1 = e := congrArg Prod.snd hhead
            exact ⟨hfst, hsnd⟩
          rw [ihsame i (by
            intro s2 e2 hmem2 hand
            have := hpwhead (s2, e2) hmem2
            simp only at this
            omega)]
          rw [hget2, if_neg (by omega), if_pos h2]
          exact getD_replicate _ _ _ _ (by omega)
        · exact ihfill s1 e1 hrest hcnt1 i h1 h2
      · intro i hnone
        rw [hstep]
        simp only
        rw [ihsame i (fun s2 e2 hmem2 => hnone s2 e2 (by simp [hmem2]))]
        have hnotrun := hnone s e (by simp)
        rw [hget2]
        by_cases h1 : i < s
        · rw [if_pos h1]
        · rw [if_neg h1, if_neg (by omega)]
      · intro s1 e1 hmem hcnt1 i h1 h2
        rw [hstep]
        simp only
        rcases List.mem_cons.mp hmem with hhead | hrest
        · obtain ⟨rfl, rfl⟩ : s1 = s ∧ e1 = e :=
            ⟨congrArg Prod.fst hhead, congrArg Prod.snd hhead⟩
          omega
        · have hgt := hpwhead (s1, e1) hrest
          simp only at hgt
          rw [ihskip s1 e1 hrest hcnt1 i h1 h2]
          rw [hget2, if_neg (by omega), if_neg (by omega)]
    · have hih := ih cur hRrest hpw2 hlen
        (fun r hr j hj => hmiss2 r (by simp [hr]) j hj) hsome
      obtain ⟨ihlen, ihfill, ihsame, ihskip⟩ := hih
      have hstep : imputeRuns maxC ((s, e) :: rest) cur
          = ((imputeRuns maxC rest cur).1,
            { (imputeRuns maxC rest cur).2 with
              not_imputed := (s + 2, e + 2, e + 1 - s)
                :: (imputeRuns maxC rest cur).2.not_imputed }) := by
        simp only [imputeRuns, if_neg hcnt]
      refine ⟨?_, ?_, ?_, ?_⟩
      · rw [hstep]
        simpa using ihlen
      · intro s1 e1 hmem hcnt1 i h1 h2
        rw [hstep]
        simp only
        rcases List.mem_cons.mp hmem with hhead | hrest
        · obtain ⟨rfl, rfl⟩ : s1 = s ∧ e1 = e :=
            ⟨congrArg Prod.fst hhead, congrArg Prod.snd hhead⟩
          omega
        · exact ihfill s1 e1 hrest hcnt1 i h1 h2
      · intro i hnone
        rw [hstep]
        simp only
        exact ihsame i (fun s2 e2 hmem2 => hnone s2 e2 (by simp [hmem2]))
      · intro s1 e1 hmem hcnt1 i h1 h2
        rw [hstep]
        simp only
        rcases List.mem_cons.mp hmem with hhead | hrest
        · obtain ⟨rfl, rfl⟩ : s1 = s ∧ e1 = e :=
            ⟨congrArg Prod.fst hhead, congrArg Prod.snd hhead⟩
          exact ihsame i (by
            intro s2 e2 hmem2 hand
            have := hpwhead (s2, e2) hmem2
            simp only at this
            omega)
        · exact ihskip s1 e1 hrest hcnt1 i h1 h2

/-- The imputation report depends only on the run lengths and the
threshold: a run is recorded as imputed iff its length is within the
threshold, and as not imputed otherwise. -/
theorem imputeRuns_report {v : Type} (maxC : Nat) :
    ∀ (L : List (Nat × Nat)) (c : List (Option v)),
      (imputeRuns maxC L c).2.imputed
        = L.filterMap (fun r => if r.2 + 1 - r.1 ≤ maxC then
            some (r.1 + 2, r.2 + 2, r.2 + 1 - r.1) else none)
      ∧ (imputeRuns maxC L c).2.not_imputed
        = L.filterMap (fun r => if r.2 + 1 - r.1 ≤ maxC then none else
            some (r.1 + 2, r.2 + 2, r.2 + 1 - r.1)) := by
  intro L
  induction L with
  | nil => intro c; exact ⟨rfl, rfl⟩
  | cons r rest ih =>
    obtain ⟨s, e⟩ := r
    intro c
    by_cases hcnt : e + 1 - s ≤ maxC
    · exact ⟨by simp only [imputeRuns, if_pos hcnt, List.filterMap_cons, (ih _).1],
        by simp only [imputeRuns, if_pos hcnt, List.filterMap_cons, (ih _).2]⟩
    · exact ⟨by simp only [imputeRuns, if_neg hcnt, List.filterMap_cons, (ih _).1],
        by simp only [imputeRuns, if_neg hcnt, List.filterMap_cons, (ih _).2]⟩

/-! ### Claims about the gap imputer -/

/-- Claim C3: on a numeric column whose cells are all missing (one maximal
run of length 2, threshold 2) the code has no reference value anywhere in
the window, the cells remain missing — and yet the run IS recorded in the
`imputed` report (rows 2-3, count 2) instead of surfacing a distinct
no-reference condition; this theorem evaluates the code at that failing
input. -/
theorem c3_no_reference_misreport :
    impute_missing_values ([none, none] : List (Option Int)) 2
      = ([none, none], ⟨[(2, 3, 2)], []⟩) := by decide

/-- Claim C4: every maximal missing run of length at most the threshold is
filled cell-by-cell with its reference value — the nearest preceding
present value inside the window (the bordering cell left of the run) when
one exists, otherwise the nearest following present value (the bordering
cell right of the run) — and present cells, in particular the bordering
context cells, are never overwritten.  In particular
`[10, missing, missing, 40]` with threshold 2 becomes `[10, 10, 10, 40]`
and `[missing, missing, 40, 50]` becomes `[40, 40, 40, 50]`. -/
theorem c4_small_gap_fill (v : Type) (col : List (Option v)) (maxC s e : Nat)
    (hrun : MaxRun col s e) (hcnt : e + 1 - s ≤ maxC) :
    (∀ i, s ≤ i → i ≤ e →
      (impute_missing_values col maxC).1.getD i none = refVal col s e)
    ∧ (∀ i, (col.getD i none).isSome = true →
        (impute_missing_values col maxC).1.getD i none = col.getD i none)
    ∧ (impute_missing_values [some (10 : Int), none, none, some 40] 2).1
        = [some 10, some 10, some 10, some 40]
    ∧ (impute_missing_values [none, none, some (40 : Int), some 50] 2).1
        = [some 40, some 40, some 40, some 50] := by
  have hspec := imputeRuns_spec maxC col (groupRuns (missingIndices col)) col
    (groupRuns_maxRun col) (groupRuns_pairwise col) rfl
    (fun r hr j hj => (groupRuns_maxRun col r hr).2.2.1 j hj)
    (fun i _ => rfl)
  obtain ⟨-, hfill, hsame, -⟩ := hspec
  refine ⟨?_, ?_, by decide, by decide⟩
  · intro i h1 h2
    exact hfill s e ((groupRuns_mem_iff col s e).mpr hrun) hcnt i h1 h2
  · intro i hsome
    apply hsame
    intro s1 e1 hmem hand
    obtain ⟨h1, h2⟩ := hand
    have hR1 := groupRuns_maxRun col (s1, e1) hmem
    have hmm := hR1.2.2.1 (i - s1) (by omega)
    rw [show s1 + (i - s1) = i by omega] at hmm
    rw [Option.isNone_iff_eq_none] at hmm
    rw [hmm] at hsome
    exact absurd hsome (by simp)

/-- Claim C4, witness: the general fill statement applied to the run
`1..2` of `[10, missing, missing, 40]` with threshold 2. -/
theorem c4_small_gap_fill_witness :
    (impute_missing_values [some (10 : Int), none, none, some 40] 2).1.getD 1 none
        = some 10
    ∧ (impute_missing_values [some (10 : Int), none, none, some 40] 2).1.getD 2 none
        = some 10 := by
  have h := c4_small_gap_fill Int [some 10, none, none, some 40] 2 1 2
    (by decide) (by decide)
  exact ⟨(h.1 1 (by decide) (by decide)).trans (by decide),
    (h.1 2 (by decide) (by decide)).trans (by decide)⟩

/-- Claim C5: with threshold `T`, a maximal missing run of length exactly
`T` is recorded as imputed and (when an adjacent reference value exists)
its cells become present, while a run of length greater than `T` has no
cell mutated and is recorded as unresolved; in particular with `T = 2` a
run of exactly 2 is filled and a run of exactly 3 is left unresolved. -/
theorem c5_threshold_boundary (v : Type) (col : List (Option v)) (T s e : Nat)
    (hrun : MaxRun col s e) :
    (e + 1 - s = T →
      ((s + 2, e + 2, T) ∈ (impute_missing_values col T).2.imputed
        ∧ ((0 < s ∨ e + 1 < col.length) → ∀ i, s ≤ i → i ≤ e →
            ((impute_missing_values col T).1.getD i none).isSome = true)))
    ∧ (T < e + 1 - s →
        ((s + 2, e + 2, e + 1 - s) ∈ (impute_missing_values col T).2.not_imputed
          ∧ (∀ i, s ≤ i → i ≤ e →
              (impute_missing_values col T).1.getD i none = none)))
    ∧ impute_missing_values [some (1 : Int), none, none, some 4] 2
        = ([some 1, some 1, some 1, some 4], ⟨[(3, 4, 2)], []⟩)
    ∧ impute_missing_values [some (1 : Int), none, none, none, some 5] 2
        = ([some 1, none, none, none, some 5], ⟨[], [(3, 5, 3)]⟩) := by
  have hmemR := (groupRuns_mem_iff col s e).mpr hrun
  have hspec := imputeRuns_spec T col (groupRuns (missingIndices col)) col
    (groupRuns_maxRun col) (groupRuns_pairwise col) rfl
    (fun r hr j hj => (groupRuns_maxRun col r hr).2.2.1 j hj)
    (fun i _ => rfl)
  obtain ⟨-, hfill, -, hskip⟩ := hspec
  obtain ⟨hse, helen, hmiss, hleft, hright⟩ := hrun
  have hrun2 : MaxRun col s e := ⟨hse, helen, hmiss, hleft, hright⟩
  refine ⟨?_, ?_, by decide, by decide⟩
  · intro hT
    constructor
    · show (s + 2, e + 2, T) ∈ (imputeRuns T (groupRuns (missingIndices col)) col).2.imputed
      rw [(imputeRuns_report T (groupRuns (missingIndices col)) col).1]
      apply List.mem_filterMap.mpr
      refine ⟨(s, e), hmemR, ?_⟩
      simp only
      rw [if_pos (by omega), hT]
    · intro href i h1 h2
      show ((imputeRuns T (groupRuns (missingIndices col)) col).1.getD i none).isSome
        = true
      have := hfill s e hmemR (by omega) i h1 h2
      rw [this]
      unfold refVal
      rcases href with hs | hB
      · rw [if_pos hs]
        rcases hleft with h0 | hsome1
        · omega
        · exact hsome1
      · by_cases hs : 0 < s
        · rw [if_pos hs]
          rcases hleft with h0 | hsome1
          · omega
          · exact hsome1
        · rw [if_neg hs]
          rcases hright with h0 | hsome1
          · omega
          · exact hsome1
  · intro hT
    constructor
    · show (s + 2, e + 2, e + 1 - s)
          ∈ (imputeRuns T (groupRuns (missingIndices col)) col).2.not_imputed
      rw [(imputeRuns_report T (groupRuns (missingIndices col)) col).2]
      apply List.mem_filterMap.mpr
      refine ⟨(s, e), hmemR, ?_⟩
      simp only
      rw [if_neg (by omega)]
    · intro i h1 h2
      show (imputeRuns T (groupRuns (missingIndices col)) col).1.getD i none = none
      have := hskip s e hmemR (by omega) i h1 h2
      rw [this]
      have hmm := hmiss (i - s) (by omega)
      rw [show s + (i - s) = i by omega] at hmm
      exact Option.isNone_iff_eq_none.mp hmm

/-- Claim C5, witness: the threshold boundary exercised at both sides —
a run of exactly 2 with threshold 2 is reported imputed and filled, a run
of exactly 3 is reported unresolved and left missing. -/
theorem c5_threshold_boundary_witness :
    ((3, 4, 2) ∈ (impute_missing_values
        [some (1 : Int), none, none, some 4] 2).2.imputed
      ∧ ((impute_missing_values
          [some (1 : Int), none, none, some 4] 2).1.getD 1 none).isSome = true)
    ∧ ((3, 5, 3) ∈ (impute_missing_values
        [some (1 : Int), none, none, none, some 5] 2).2.not_imputed
      ∧ (impute_missing_values
          [some (1 : Int), none, none, none, some 5] 2).1.getD 2 none = none) := by
  have h1 := (c5_threshold_boundary Int [some 1, none, none, some 4] 2 1 2
    (by decide)).1 (by decide)
  have h2 := ((c5_threshold_boundary Int [some 1, none, none, none, some 5] 2 1 3
    (by decide)).2.1 (by decide))
  exact ⟨⟨h1.1, h1.2 (by decide) 1 (by decide) (by decide)⟩,
    ⟨h2.1, h2.2 2 (by decide) (by decide)⟩⟩

/-- Claim C9: both transforming stages preserve the row count and the row
order — `standardize_dates` maps each date cell in place (so its output is
the cell-wise image of its input, same length, same order), and
`impute_missing_values` returns a column of the same length. -/
theorem c9_row_count_preserved :
    (∀ dates : List (List Char),
      (standardize_dates dates).1.length = dates.length
        ∧ (standardize_dates dates).1 = dates.map standardizeCell)
    ∧ (∀ (v : Type) (col : List (Option v)) (maxC : Nat),
        (impute_missing_values col maxC).1.length = col.length) := by
  constructor
  · intro dates
    have h := standardizeAux_fst 0 dates
    exact ⟨by rw [standardize_dates, h]; simp, h⟩
  · intro v col maxC
    exact (imputeRuns_spec maxC col (groupRuns (missingIndices col)) col
      (groupRuns_maxRun col) (groupRuns_pairwise col) rfl
      (fun r hr j hj => (groupRuns_maxRun col r hr).2.2.1 j hj)
      (fun i _ => rfl)).1

end StockData
